import Mathlib

/-!
# nachat: member records and the room view's member list

A shallow embedding of `src/matrix/Member.hpp` and `src/roomview.cpp`.

* `QString` values are Lean `String`s (a sequence of characters with a length).
* `QUrl` is represented by its textual form; a default-constructed `QUrl` is the empty text.
* `const matrix::Member *` values stored in the member list are represented by the
  `Member` they point to at the time of the call.
* `std::map<QString, const Member *, Compare>` is an ordered list of entries; the ordering
  functor `Compare::operator()` is declared in a header that is not part of the embedded
  sources, so it is a parameter `lt` of every map operation.
* `QString::toCaseFolded` is a Qt library routine and is a parameter `fold`.
* A read `n[i]` with `i` outside `0 <= i < n.size()` is outside the contract of
  `QString::operator[]`; the character such a read yields is a parameter `oob`, and the
  indices read are recorded.
* `RoomState`, `Room` and the bodies of `parse_membership` and `Member::dispatch` are not
  among the embedded sources; they follow the specification and are marked as such. The
  disambiguated form of a member name, which the specification leaves open, is a parameter
  `fmt` of the naming rule; `member_name` uses the form of the example of the specification.
-/

namespace matrix

/-- The enumeration `Membership` of `Member.hpp`. -/
inductive Membership where
  | INVITE
  | JOIN
  | LEAVE
  | BAN
  deriving DecidableEq, Repr

/-- The class `Member` of `Member.hpp`: a constant id and three mutable attributes. -/
structure Member where
  id_ : String
  display_name_ : String
  avatar_url_ : String
  membership_ : Membership
  deriving DecidableEq, Repr

/-- The constructor `Member(QString id) : id_(id) {}`; the other fields take their
default member initialisers (empty `QString`, empty `QUrl`, `Membership::LEAVE`). -/
def Member.new (id : String) : Member :=
  { id_ := id, display_name_ := "", avatar_url_ := "", membership_ := Membership.LEAVE }

/-- Accessor `id()`. -/
def Member.id (m : Member) : String := m.id_

/-- Accessor `display_name()`. -/
def Member.display_name (m : Member) : String := m.display_name_

/-- Accessor `avatar_url()`. -/
def Member.avatar_url (m : Member) : String := m.avatar_url_

/-- Accessor `membership()`. -/
def Member.membership (m : Member) : Membership := m.membership_

/-- Modelled from the spec: the four literal membership forms recognised by
`parse_membership`. `Member.hpp` only declares the function and the spec does not
spell the literals out, so they are carried as data. -/
structure MembershipTokens where
  invite : String
  join : String
  leave : String
  ban : String

/-- The literals of the Matrix protocol, used as a concrete instance. -/
def matrixTokens : MembershipTokens :=
  { invite := "invite", join := "join", leave := "leave", ban := "ban" }

/-- Modelled from the spec: the body of `parse_membership` is missing (only its
declaration is in `Member.hpp`). Spec 4.1: the four recognised literal forms map exactly to
INVITE/JOIN/LEAVE/BAN, case-sensitively and without aliases; any other token gives the
absent optional. -/
def parse_membership (t : MembershipTokens) (m : String) : Option Membership :=
  if m = t.invite then some Membership.INVITE
  else if m = t.join then some Membership.JOIN
  else if m = t.leave then some Membership.LEAVE
  else if m = t.ban then some Membership.BAN
  else none

namespace proto

/-- Modelled from the spec: `proto::Event` is only forward-declared in `Member.hpp`.
Spec 6: a tagged value with a type discriminator and payload fields (target member id, new
membership token as text, optional display name, optional avatar reference, optional topic
text, message body). -/
structure Event where
  type_ : String
  member_id : String
  membership : String
  displayname : Option String
  avatar_url : Option String
  topic : Option String
  body : String
  deriving DecidableEq, Repr

end proto

/-- Modelled from the spec: the body of `Member::dispatch` is missing (only its declaration
is in `Member.hpp`). Spec 4.1/4.2/7: the membership is overwritten when the token parses
(an unrecognised token leaves it alone while the other sub-fields still apply), the display
name and the avatar are overwritten only when the event supplies them. The field `id_` is
declared `const` in `Member.hpp`, so no member function can assign it. -/
def Member.dispatch (t : MembershipTokens) (m : Member) (e : proto.Event) : Member :=
  let m1 : Member :=
    match parse_membership t e.membership with
    | some v => { m with membership_ := v }
    | none => m
  let m2 : Member :=
    match e.displayname with
    | some d => { m1 with display_name_ := d }
    | none => m1
  match e.avatar_url with
  | some a => { m2 with avatar_url_ := a }
  | none => m2


/-- Membership test used by the naming rule: the member is in JOIN or INVITE state. -/
def Member.active (m : Member) : Bool :=
  match m.membership with
  | Membership.INVITE => true
  | Membership.JOIN => true
  | Membership.LEAVE => false
  | Membership.BAN => false

/-- Modelled from the spec: the class `RoomState` is missing from the sources. Spec 3: a
mapping from member id to `Member` with unique keys (here the list of its entries, keyed by
`id`), plus the room-level topic and name. -/
structure RoomState where
  members_ : List Member
  topic_ : String
  name_ : String
  deriving DecidableEq, Repr

/-- Modelled from the spec: `RoomState::members()` is missing. Spec 4.2: all entries in the
mapping (records of members in LEAVE or BAN state are kept in the mapping). -/
def RoomState.members (s : RoomState) : List Member := s.members_

/-- Modelled from the spec: `RoomState::topic()` is missing; the room-level topic. -/
def RoomState.topic (s : RoomState) : String := s.topic_

/-- Modelled from the spec: the other members of the state that are currently in JOIN or
INVITE state and share the display name of `member` (spec 4.2, case-sensitive exact
match). -/
def RoomState.name_rivals (s : RoomState) (member : Member) : List Member :=
  s.members_.filter fun o =>
    decide (o.id ≠ member.id) && o.active && decide (o.display_name = member.display_name)

/-- Modelled from the spec: the naming rule of `RoomState::member_name`, which is missing
from the sources. Spec 4.2: an absent (empty) display name resolves to the id; a display
name shared with no other active member is returned verbatim; otherwise a disambiguated
form combining display name and id is returned. The spec leaves the exact disambiguated
form open (spec 9), so it is the parameter `fmt`, applied to the display name and the id. -/
def RoomState.member_name_fmt (fmt : String → String → String) (s : RoomState)
    (member : Member) : String :=
  if member.display_name = "" then member.id
  else if (s.name_rivals member).length = 0 then member.display_name
  else fmt member.display_name member.id

/-- The three cases of the naming rule of spec 4.2: the name is the id, the bare display
name, or the disambiguated form. -/
inductive NameForm where
  | byId
  | bare
  | tagged
  deriving DecidableEq, Repr

/-- Modelled from the spec: the case of the naming rule of spec 4.2 that applies to
`member` in the state `s`, decided by the same tests as `member_name_fmt`. -/
def RoomState.name_form (s : RoomState) (member : Member) : NameForm :=
  if member.display_name = "" then NameForm.byId
  else if (s.name_rivals member).length = 0 then NameForm.bare
  else NameForm.tagged

/-- Modelled from the spec: the disambiguated form that spec 4.2 gives as its example,
`DisplayName (id)`. -/
def parenFormat (dn id : String) : String :=
  dn ++ " (" ++ id ++ ")"

/-- Modelled from the spec: `RoomState::member_name` is missing; it is the naming rule of
spec 4.2 with the disambiguated form of the example of the spec. -/
def RoomState.member_name (s : RoomState) (member : Member) : String :=
  s.member_name_fmt parenFormat member

/-- Modelled from the spec: the state in which the record of member `id` carries the
membership `ms` and everything else is as before (spec 4.2: a membership change overwrites
the membership and never deletes the record). -/
def RoomState.with_membership (s : RoomState) (id : String) (ms : Membership) : RoomState :=
  { s with members_ := s.members_.map fun m =>
      if m.id = id then { m with membership_ := ms } else m }

/-- Modelled from the spec: one entry of `Room::buffer()`, which is missing from the
sources. Spec 3: a batch is a prior pagination token and an ordered sequence of events. -/
structure Batch where
  prev_batch : String
  events : List proto.Event
  deriving DecidableEq, Repr

/-- Modelled from the spec: the class `Room` is missing from the sources. Spec 3/4.3: it
owns the live state returned by `state()`, the state returned by `initial_state()` and the
ordered history buffer returned by `buffer()`. -/
structure Room where
  initial_state_ : RoomState
  state_ : RoomState
  buffer_ : List Batch
  deriving DecidableEq, Repr

/-- Accessor `Room::state()`. -/
def Room.state (r : Room) : RoomState := r.state_

/-- Accessor `Room::initial_state()`. -/
def Room.initial_state (r : Room) : RoomState := r.initial_state_

/-- Accessor `Room::buffer()`. -/
def Room.buffer (r : Room) : List Batch := r.buffer_

end matrix

open matrix

/-- The calls received by the `TimelineView` widget, which is outside the embedded sources:
the widget is represented by the sequence of calls made on it, oldest first. -/
inductive TimelineCall where
  | end_batch (token : String)
  | push_back (state : RoomState) (evt : proto.Event)
  deriving DecidableEq, Repr

/-- The member list `member_list_`: the entries of the `std::map`, in iteration order. -/
abbrev MemberList := List (String × Member)

/-- The fields of `RoomView` that the embedded functions read or write. The reference
`room_` is passed to each function explicitly. -/
structure RoomView where
  member_list_ : MemberList
  timeline_view_ : List TimelineCall
  deriving DecidableEq, Repr

/-- The state after a slot has run: the view, and the message of the `std::logic_error`
that left the slot, if one was thrown. -/
structure SlotResult where
  view : RoomView
  thrown : Option String
  deriving DecidableEq, Repr

namespace StdMap

/-- Key equivalence of an ordered container with comparator `lt`: neither key is ordered
before the other. -/
def equiv (lt : String → String → Bool) (a b : String) : Bool :=
  !lt a b && !lt b a

/-- The call `std::map::insert(value)`: the value is placed before the first entry that is
not ordered before it, unless that entry has an equivalent key, in which case the map is
left as it is. -/
def insert (lt : String → String → Bool) (kv : String × Member) : MemberList → MemberList
  | [] => [kv]
  | e :: rest =>
    if lt e.1 kv.1 then e :: insert lt kv rest
    else if lt kv.1 e.1 then kv :: e :: rest
    else e :: rest

/-- The call `std::map::erase(key)`: every entry with a key equivalent to `k` is removed;
the second component is the number of removed entries. In a list ordered by a strict weak
ordering these entries are the range `equal_range(k)`. -/
def erase (lt : String → String → Bool) (k : String) (l : MemberList) : MemberList × Nat :=
  (l.filter (fun e => !equiv lt e.1 k), l.countP (fun e => equiv lt e.1 k))

end StdMap

namespace RoomView

namespace Compare

/-- The read `n[i]` on a `const QString &`. An index outside `0 <= i < n.size()` is
outside the contract of `QString::operator[]`; `oob` stands for whatever such a read
yields. -/
def charAt (oob : Char) (n : String) (i : Nat) : Char :=
  n.data.getD i oob

/-- The loop `while((n[i] == '@') && (i < n.size())) { ++i; }` entered with index `i`:
the final index and the indices at which `n[i]` was read, in order. The character is read
before the bound is tested. The first argument bounds the number of loop tests. -/
def scan (oob : Char) (n : String) : Nat → Nat → Nat × List Nat
  | 0, i => (i, [])
  | fuel + 1, i =>
    let c := charAt oob n i
    if c = '@' && decide (i < n.length) then
      let r := scan oob n fuel (i + 1)
      (r.1, i :: r.2)
    else (i, [i])

/-- The indices read by `key(n)`. At most `n.size() + 1` loop tests can happen, since the
index grows by one each time and the test fails once it reaches `n.size()`. -/
def key_reads (oob : Char) (n : String) : List Nat :=
  (scan oob n (n.length + 1) 0).2

/-- The function `RoomView::Compare::key`. -/
def key (fold : String → String) (oob : Char) (n : String) : String :=
  let i := (scan oob n (n.length + 1) 0).1
  if i = n.length then fold n
  else fold (String.mk ((n.data.drop i).take (n.length - i)))

/-- A comparator that orders names by their keys: the call operator of `Compare` is
declared in a header that is not part of the embedded sources, and `key` is the only helper
of `Compare`. The `QString` comparison is the lexicographic order of the characters. It is
used as the concrete instance of the ordering functor of the member list. -/
def less (fold : String → String) (oob : Char) (a b : String) : Bool :=
  decide ((key fold oob a).data < (key fold oob b).data)

/-- A case folding restricted to the ASCII letters, used as a concrete instance of
`QString::toCaseFolded`. -/
def asciiFold (s : String) : String :=
  String.mk (s.data.map Char.toLower)

/-- The name `n` with its leading `@` characters removed. -/
def strip (n : String) : String :=
  String.mk (n.data.dropWhile fun c => decide (c = '@'))

end Compare

/-- The function `RoomView::append_message`: forwards to `TimelineView::push_back`. -/
def append_message (self : RoomView) (state : RoomState) (msg : proto.Event) : RoomView :=
  { self with timeline_view_ := self.timeline_view_ ++ [TimelineCall.push_back state msg] }

/-- Lines 46-49 of the constructor: every member returned by `room_.state().members()` is
inserted under its resolved name. -/
def insert_initial_members (lt : String → String → Bool) (room : Room) (self : RoomView) :
    RoomView :=
  (room.state.members).foldl
    (fun v member =>
      let l := StdMap.insert lt (room.state.member_name member, member) v.member_list_
      { v with member_list_ := l })
    self

/-- The inner loop of lines 56-59: each event is applied to the replay state, then rendered
against it. -/
def replay_events (apply : RoomState → proto.Event → RoomState)
    (acc : RoomState × RoomView) (events : List proto.Event) : RoomState × RoomView :=
  events.foldl
    (fun a event =>
      let replay_state := apply a.1 event
      (replay_state, append_message a.2 replay_state event))
    acc

/-- The outer loop of lines 54-60: `end_batch` is called with the token of the batch, then
the events of the batch are replayed. -/
def replay_batches (apply : RoomState → proto.Event → RoomState)
    (acc : RoomState × RoomView) (buffer : List Batch) : RoomState × RoomView :=
  buffer.foldl
    (fun a batch =>
      let v : RoomView :=
        { a.2 with timeline_view_ := a.2.timeline_view_ ++ [TimelineCall.end_batch batch.prev_batch] }
      replay_events apply (a.1, v) batch.events)
    acc

/-- The constructor `RoomView::RoomView(room, parent)`, restricted to the member list and
the timeline: the widget set-up, the signal connections, `topic_changed` and
`update_members` only touch the user interface. The room is returned together with the view
so that its state after the call can be read. `apply` is `RoomState::apply`, which is not
part of the embedded sources. -/
def ctor (lt : String → String → Bool) (apply : RoomState → proto.Event → RoomState)
    (room : Room) : Room × RoomView :=
  let v0 : RoomView := { member_list_ := [], timeline_view_ := [] }
  let v1 := insert_initial_members lt room v0
  let replay_state := room.initial_state
  let r := replay_batches apply (replay_state, v1) room.buffer
  (room, r.2)

/-- The slot `RoomView::membership_changed(member, old)`. -/
def membership_changed (lt : String → String → Bool) (room : Room) (self : RoomView)
    (member : Member) (_old : Membership) : SlotResult :=
  match member.membership with
  | Membership.INVITE | Membership.JOIN =>
    let l := StdMap.insert lt (room.state.member_name member, member) self.member_list_
    { view := { self with member_list_ := l }, thrown := none }
  | Membership.LEAVE | Membership.BAN =>
    let e := StdMap.erase lt (room.state.member_name member) self.member_list_
    { view := { self with member_list_ := e.1 }, thrown := none }

end RoomView

/-- The state as of event `k` (spec 4.2): the result of applying the first `k` events, in
order, to the starting state. -/
def stateAsOf (apply : RoomState → proto.Event → RoomState) (init : RoomState)
    (events : List proto.Event) (k : Nat) : RoomState :=
  (events.take k).foldl apply init

/-- The `push_back` calls of a timeline log, in order. -/
def renders : List TimelineCall → List (RoomState × proto.Event)
  | [] => []
  | TimelineCall.end_batch _ :: rest => renders rest
  | TimelineCall.push_back s e :: rest => (s, e) :: renders rest

/-- A timeline log with the state argument of each `push_back` call left out: the token of
an `end_batch` call on the left, the event of a `push_back` call on the right. -/
def callShape : List TimelineCall → List (String ⊕ proto.Event)
  | [] => []
  | TimelineCall.end_batch t :: rest => Sum.inl t :: callShape rest
  | TimelineCall.push_back _ e :: rest => Sum.inr e :: callShape rest


/-- The `push_back` calls made while replaying `events` from the replay state `s`: each
event is rendered against the state that results from applying it. -/
def eventCalls (apply : RoomState → proto.Event → RoomState) (s : RoomState) :
    List proto.Event → List TimelineCall
  | [] => []
  | e :: es => TimelineCall.push_back (apply s e) e :: eventCalls apply (apply s e) es

/-- The calls made while replaying the batches of `buffer` from the replay state `s`. -/
def batchCalls (apply : RoomState → proto.Event → RoomState) (s : RoomState) :
    List Batch → List TimelineCall
  | [] => []
  | b :: bs =>
    TimelineCall.end_batch b.prev_batch ::
      (eventCalls apply s b.events ++ batchCalls apply (b.events.foldl apply s) bs)

/-- A joined member `@a` without display name. -/
def clashA : Member :=
  { id_ := "@a", display_name_ := "", avatar_url_ := "", membership_ := Membership.JOIN }

/-- A joined member `@b` whose display name is the text `@a`. -/
def clashB : Member :=
  { id_ := "@b", display_name_ := "@a", avatar_url_ := "", membership_ := Membership.JOIN }

/-- A room state holding the two members `clashA` and `clashB`. -/
def clashState : RoomState :=
  { members_ := [clashA, clashB], topic_ := "", name_ := "" }

/-- The member A of the naming scenario of spec 8.2: id `@a`, display name `Sam`, joined. -/
def samA : Member :=
  { id_ := "@a", display_name_ := "Sam", avatar_url_ := "", membership_ := Membership.JOIN }

/-- The member B of the naming scenario of spec 8.2: id `@b`, display name `Sam`, joined. -/
def samB : Member :=
  { id_ := "@b", display_name_ := "Sam", avatar_url_ := "", membership_ := Membership.JOIN }

/-- The room state of the naming scenario of spec 8.2. -/
def samState : RoomState :=
  { members_ := [samA, samB], topic_ := "", name_ := "" }

/-- A member `@a` that has left the room: its record is kept with membership LEAVE. -/
def leftMember : Member :=
  { id_ := "@a", display_name_ := "", avatar_url_ := "", membership_ := Membership.LEAVE }

/-- A room whose live state holds the single record `leftMember`, with an empty history
buffer. -/
def leftRoom : Room :=
  { initial_state_ := { members_ := [], topic_ := "", name_ := "" },
    state_ := { members_ := [leftMember], topic_ := "", name_ := "" },
    buffer_ := [] }

/-- The comparator used in the concrete instances: names ordered by their ASCII-folded
keys. -/
def sampleLess : String → String → Bool :=
  RoomView.Compare.less RoomView.Compare.asciiFold 'x'

/-- A third joined member displayed as `Sam`, with id `@c`. -/
def samC : Member :=
  { id_ := "@c", display_name_ := "Sam", avatar_url_ := "", membership_ := Membership.JOIN }

/-- A room state with three joined members displayed as `Sam`. -/
def threeSams : RoomState :=
  { members_ := [samA, samB, samC], topic_ := "", name_ := "" }

/-- A joined member without display name whose id is the text `Sam (@b)`. -/
def idForm : Member :=
  { id_ := "Sam (@b)", display_name_ := "", avatar_url_ := "",
    membership_ := Membership.JOIN }

/-- A joined member `@d` whose display name is the text `Sam (@b)`. -/
def dnForm : Member :=
  { id_ := "@d", display_name_ := "Sam (@b)", avatar_url_ := "",
    membership_ := Membership.JOIN }

/-- A room state with two joined members displayed as `Sam` and the members `idForm` and
`dnForm`. -/
def formState : RoomState :=
  { members_ := [samB, samC, idForm, dnForm], topic_ := "", name_ := "" }

/-- A joined member with id `r` and display name `S (q`. -/
def crossA : Member :=
  { id_ := "r", display_name_ := "S (q", avatar_url_ := "", membership_ := Membership.JOIN }

/-- A second joined member with display name `S (q`. -/
def crossA2 : Member :=
  { id_ := "r2", display_name_ := "S (q", avatar_url_ := "", membership_ := Membership.JOIN }

/-- A joined member with id `q (r` and display name `S`. -/
def crossB : Member :=
  { id_ := "q (r", display_name_ := "S", avatar_url_ := "", membership_ := Membership.JOIN }

/-- A second joined member with display name `S`. -/
def crossB2 : Member :=
  { id_ := "q2", display_name_ := "S", avatar_url_ := "", membership_ := Membership.JOIN }

/-- A room state in which the display names `S (q` and `S` are both shared. -/
def crossState : RoomState :=
  { members_ := [crossA, crossA2, crossB, crossB2], topic_ := "", name_ := "" }

/-! ## Theorems -/

/-! ### Member records -/

/-- C1: for every non-empty id string `s`, a freshly constructed `Member(s)` has `id()`
equal to `s`, an empty display name, an empty avatar url and membership LEAVE. -/
theorem member_new_fields (s : String) (_hs : s ≠ "") :
    (Member.new s).id = s ∧ (Member.new s).display_name = "" ∧
      (Member.new s).avatar_url = "" ∧ (Member.new s).membership = Membership.LEAVE :=
  ⟨rfl, rfl, rfl, rfl⟩

/-- Witness for C1 at the id `@a`. -/
theorem member_new_fields_witness :
    ("@a" ≠ "") ∧ (Member.new "@a").id = "@a" ∧ (Member.new "@a").display_name = "" ∧
      (Member.new "@a").avatar_url = "" ∧ (Member.new "@a").membership = Membership.LEAVE :=
  ⟨by decide, member_new_fields "@a" (by decide)⟩

/-- C5: with four pairwise different literals, `parse_membership` yields INVITE, JOIN,
LEAVE, BAN exactly on the literal of that membership (plain string equality, hence
case-sensitive and without aliases) and the absent optional on every other string; it is a
total function, so no input makes it raise. -/
theorem parse_membership_exact (t : MembershipTokens)
    (hd : [t.invite, t.join, t.leave, t.ban].Nodup) (s : String) :
    (parse_membership t s = some Membership.INVITE ↔ s = t.invite) ∧
      (parse_membership t s = some Membership.JOIN ↔ s = t.join) ∧
      (parse_membership t s = some Membership.LEAVE ↔ s = t.leave) ∧
      (parse_membership t s = some Membership.BAN ↔ s = t.ban) ∧
      (parse_membership t s = none ↔ s ∉ [t.invite, t.join, t.leave, t.ban]) := by
  simp only [List.nodup_cons, List.mem_cons, List.mem_singleton, List.not_mem_nil,
    not_or, List.nodup_nil, and_true, not_false_eq_true, or_false] at hd ⊢
  obtain ⟨⟨h1, h2, h3⟩, ⟨h4, h5⟩, h6⟩ := hd
  unfold parse_membership
  by_cases a1 : s = t.invite
  · subst a1; simp [h1, h2, h3]
  · by_cases a2 : s = t.join
    · subst a2; simp [a1, h4, h5]
    · by_cases a3 : s = t.leave
      · subst a3; simp [a1, a2, h6]
      · by_cases a4 : s = t.ban
        · subst a4; simp [a1, a2, a3]
        · simp [a1, a2, a3, a4]

/-- Witness for C5: the Matrix literals are pairwise different; the theorem is applied to
the upper-case token `JOIN`, which is therefore not recognised. -/
theorem parse_membership_exact_witness :
    [matrixTokens.invite, matrixTokens.join, matrixTokens.leave, matrixTokens.ban].Nodup ∧
      parse_membership matrixTokens "JOIN" = none ∧
      parse_membership matrixTokens "join" = some Membership.JOIN :=
  ⟨by decide,
   ((parse_membership_exact matrixTokens (by decide) "JOIN").2.2.2.2).2 (by decide),
   by decide⟩

/-- C6: dispatching any event onto a member leaves `id()` as it was; the result differs
from the member at most in display name, avatar url and membership. -/
theorem member_dispatch_id (t : MembershipTokens) (m : Member) (e : proto.Event) :
    (m.dispatch t e).id = m.id ∧
      ∃ d a ms, m.dispatch t e =
        { id_ := m.id_, display_name_ := d, avatar_url_ := a, membership_ := ms } := by
  unfold Member.dispatch Member.id
  cases parse_membership t e.membership <;> cases e.displayname <;> cases e.avatar_url <;>
    exact ⟨rfl, _, _, _, rfl⟩

open RoomView

/-! ### The key of a name -/

/-- With enough loop tests left, the scan started at index `i` stops after the run of `@`
characters that begins at `i`, and has read every index from `i` up to and including the
one it stops at. -/
theorem scan_eq (oob : Char) (n : String) :
    ∀ (fuel i : Nat), i ≤ n.length → n.length + 1 ≤ fuel + i →
      Compare.scan oob n fuel i =
        (i + ((n.data.drop i).takeWhile fun c => decide (c = '@')).length,
          List.range' i (((n.data.drop i).takeWhile fun c => decide (c = '@')).length + 1)) := by
  intro fuel
  induction fuel with
  | zero => intro i h1 h2; omega
  | succ fuel ih =>
    intro i h1 h2
    have hlen : n.length = n.data.length := rfl
    rcases Nat.lt_or_ge i n.length with hlt | hge
    · have hd : n.data.drop i = n.data[i] :: n.data.drop (i + 1) := by
        rw [List.drop_eq_getElem_cons]
      have hc : Compare.charAt oob n i = n.data[i] := by
        simp [Compare.charAt, List.getD, List.getElem?_eq_getElem (hlen ▸ hlt)]
      unfold Compare.scan
      simp only [hc, hd, List.takeWhile_cons]
      by_cases hat : n.data[i] = '@'
      · have := ih (i + 1) (by omega) (by omega)
        simp [hat, hlt, this, List.range'_succ]
        omega
      · simp [hat]
    · have hi : i = n.length := by omega
      subst hi
      have hd : n.data.drop n.length = [] := List.drop_length n.data
      unfold Compare.scan
      simp [hd]

/-- The longest prefix satisfying `p` is the whole list exactly when every element
satisfies `p`. -/
theorem length_takeWhile_eq_iff {α : Type} (p : α → Bool) (l : List α) :
    (l.takeWhile p).length = l.length ↔ ∀ c ∈ l, p c = true := by
  induction l with
  | nil => simp
  | cons a l ih =>
    by_cases h : p a = true
    · simp [List.takeWhile_cons, h, ih]
    · simp [List.takeWhile_cons, h]

/-- Dropping as many elements as the longest prefix satisfying `p` has is `dropWhile p`. -/
theorem drop_length_takeWhile {α : Type} (p : α → Bool) (l : List α) :
    l.drop (l.takeWhile p).length = l.dropWhile p := by
  induction l with
  | nil => simp
  | cons a l ih =>
    by_cases h : p a = true
    · simp [List.takeWhile_cons, List.dropWhile_cons, h, ih]
    · simp [List.takeWhile_cons, List.dropWhile_cons, h]

/-- The first element left by `dropWhile p` does not satisfy `p`. -/
theorem head_dropWhile {α : Type} (p : α → Bool) (l : List α) (a : α)
    (h : (l.dropWhile p).head? = some a) : p a = false := by
  induction l with
  | nil => simp at h
  | cons b l ih =>
    by_cases hb : p b = true
    · simp [List.dropWhile_cons, hb] at h; exact ih h
    · simp [List.dropWhile_cons, hb] at h; subst h; simpa using hb

/-- The code point of `Char.ofNat n` is `n` when `n` is a valid code point. -/
theorem toNat_ofNat_valid (n : Nat) (hv : n.isValidChar) : (Char.ofNat n).toNat = n := by
  unfold Char.ofNat
  rw [dif_pos hv]
  rfl

/-- Only `@` is lowered to `@`. -/
theorem toLower_eq_at (c : Char) (h : c.toLower = '@') : c = '@' := by
  unfold Char.toLower at h
  simp only at h
  by_cases hc : c.toNat ≥ 65 ∧ c.toNat ≤ 90
  · exfalso
    rw [if_pos hc] at h
    have h1 : (Char.ofNat (c.toNat + 32)).toNat = 64 := by rw [h]; rfl
    have hv : (c.toNat + 32).isValidChar := by
      left
      omega
    rw [toNat_ofNat_valid _ hv] at h1
    omega
  · rw [if_neg hc] at h
    exact h

/-- The ASCII folding does not create a leading `@`. -/
theorem asciiFold_head (s : String)
    (h : (RoomView.Compare.asciiFold s).data.head? = some '@') : s.data.head? = some '@' := by
  unfold RoomView.Compare.asciiFold at h
  cases hs : s.data with
  | nil => simp [hs] at h
  | cons a l =>
    simp [hs] at h
    simp [toLower_eq_at a h]

/-- The index at which the loop of `key` stops is the number of leading `@` characters. -/
theorem scan_index (oob : Char) (n : String) :
    (Compare.scan oob n (n.length + 1) 0).1 =
      (n.data.takeWhile fun c => decide (c = '@')).length := by
  have h := scan_eq oob n (n.length + 1) 0 (Nat.zero_le _) (Nat.le_refl _)
  simp [h]

/-- The indices read by `key(n)` are `0, 1, ..., k` where `k` is the number of leading `@`
characters of `n`. -/
theorem key_reads_eq (oob : Char) (n : String) :
    Compare.key_reads oob n =
      List.range ((n.data.takeWhile fun c => decide (c = '@')).length + 1) := by
  have h := scan_eq oob n (n.length + 1) 0 (Nat.zero_le _) (Nat.le_refl _)
  simp [Compare.key_reads, h, List.range_eq_range']

/-- C8: the claim that every index read by `key` satisfies `0 <= i < n.size()` fails on the
code. On the empty name the scan reads `n[0]` although the size is 0, and on the name `@@`
it reads `n[2]` although the size is 2: the character is read before the bound is tested.
In general the index `n.size()` is read for every name made only of `@` characters, while
for a name with some other character every read index is below `n.size()`. -/
theorem key_reads_past_end (oob : Char) :
    Compare.key_reads oob "" = [0] ∧ "".length = 0 ∧
      Compare.key_reads oob "@@" = [0, 1, 2] ∧ "@@".length = 2 ∧
      (∀ n : String, (∀ c ∈ n.data, c = '@') → n.length ∈ Compare.key_reads oob n) ∧
      (∀ n : String, (∃ c ∈ n.data, c ≠ '@') →
        ∀ i ∈ Compare.key_reads oob n, i < n.length) := by
  refine ⟨?_, rfl, ?_, rfl, ?_, ?_⟩
  · rw [key_reads_eq]; rfl
  · rw [key_reads_eq]; rfl
  · intro n hall
    have hiff := length_takeWhile_eq_iff (fun c => decide (c = '@')) n.data
    have heq : (n.data.takeWhile fun c => decide (c = '@')).length = n.data.length := by
      rw [hiff]
      simpa using hall
    rw [key_reads_eq, heq, List.mem_range]
    exact Nat.lt_succ_self _
  · rintro n ⟨c, hc, hne⟩ i hi
    have hiff := length_takeWhile_eq_iff (fun c => decide (c = '@')) n.data
    have hle : (n.data.takeWhile fun c => decide (c = '@')).length ≤ n.data.length :=
      (List.takeWhile_sublist _).length_le
    have hneq : (n.data.takeWhile fun c => decide (c = '@')).length ≠ n.data.length := by
      intro h
      rw [hiff] at h
      exact hne (by simpa using h c hc)
    rw [key_reads_eq, List.mem_range] at hi
    have hlen : n.length = n.data.length := rfl
    omega

/-- C9: let the case folding create no leading `@`. For a name with at least one character
other than `@`, `key` is the case-folded name with its leading `@` characters removed, and
neither the stripped name nor the key begins with `@`. For a name made only of `@`
characters (the empty name included), `key` is the case-folded name, `@` characters kept.
This holds whatever the read just past the end of the name yields. -/
theorem key_spec (fold : String → String) (oob : Char) (n : String)
    (hfold : ∀ s : String, (fold s).data.head? = some '@' → s.data.head? = some '@') :
    ((∃ c ∈ n.data, c ≠ '@') →
        Compare.key fold oob n = fold (Compare.strip n) ∧
          (Compare.strip n).data.head? ≠ some '@' ∧
          (Compare.key fold oob n).data.head? ≠ some '@') ∧
      ((∀ c ∈ n.data, c = '@') → Compare.key fold oob n = fold n) := by
  have hiff := length_takeWhile_eq_iff (fun c => decide (c = '@')) n.data
  have hlen : n.length = n.data.length := rfl
  have hstrip : (Compare.strip n).data.head? ≠ some '@' := by
    intro h
    have := head_dropWhile (fun c => decide (c = '@')) n.data '@' h
    simp at this
  constructor
  · rintro ⟨c, hc, hne⟩
    have hlt : (n.data.takeWhile fun c => decide (c = '@')).length ≠ n.length := by
      intro h
      rw [hlen, hiff] at h
      exact hne (by simpa using h c hc)
    have hk : Compare.key fold oob n = fold (Compare.strip n) := by
      unfold Compare.key Compare.strip
      simp only [scan_index]
      rw [if_neg hlt, drop_length_takeWhile, List.take_of_length_le]
      rw [← drop_length_takeWhile, List.length_drop]
      exact Nat.le_of_eq rfl
    refine ⟨hk, hstrip, ?_⟩
    rw [hk]
    exact fun h => hstrip (hfold _ h)
  · intro hall
    have heq : (n.data.takeWhile fun c => decide (c = '@')).length = n.length := by
      rw [hlen, hiff]
      simpa using hall
    unfold Compare.key
    simp only [scan_index]
    rw [if_pos heq]

/-- Witness for C9 with the ASCII folding: the key of `@@Sam@x` is `sam@x`, the key of `@@`
is `@@`. -/
theorem key_spec_witness :
    (∀ s : String, (Compare.asciiFold s).data.head? = some '@' → s.data.head? = some '@') ∧
      (∃ c ∈ "@@Sam@x".data, c ≠ '@') ∧
      Compare.key Compare.asciiFold 'x' "@@Sam@x" = "sam@x" ∧
      Compare.key Compare.asciiFold 'x' "@@" = "@@" :=
  ⟨asciiFold_head, by decide,
    by
      have h := (key_spec Compare.asciiFold 'x' "@@Sam@x" asciiFold_head).1 (by decide)
      rw [h.1]; decide,
    by
      rw [(key_spec Compare.asciiFold 'x' "@@" asciiFold_head).2 (by decide)]; decide⟩

/-! ### The member list -/

/-- Replaying the events of one batch applies them in order and appends their `push_back`
calls to the timeline. -/
theorem replay_events_eq (apply : RoomState → proto.Event → RoomState)
    (events : List proto.Event) :
    ∀ (s : RoomState) (v : RoomView),
      replay_events apply (s, v) events =
        (events.foldl apply s,
          { v with timeline_view_ := v.timeline_view_ ++ eventCalls apply s events }) := by
  induction events with
  | nil => intro s v; simp [replay_events, eventCalls]
  | cons e es ih =>
    intro s v
    have h := ih (apply s e) (append_message v (apply s e) e)
    unfold replay_events at h ⊢
    rw [List.foldl_cons, h]
    simp [append_message, eventCalls]

/-- Replaying a buffer applies the events of all its batches in order and appends the calls
of the batches to the timeline. -/
theorem replay_batches_eq (apply : RoomState → proto.Event → RoomState)
    (buffer : List Batch) :
    ∀ (s : RoomState) (v : RoomView),
      replay_batches apply (s, v) buffer =
        ((buffer.map Batch.events).flatten.foldl apply s,
          { v with timeline_view_ := v.timeline_view_ ++ batchCalls apply s buffer }) := by
  induction buffer with
  | nil => intro s v; simp [replay_batches, batchCalls]
  | cons b bs ih =>
    intro s v
    have hstep : replay_batches apply (s, v) (b :: bs) =
        replay_batches apply
          (replay_events apply
            (s, { v with timeline_view_ :=
                    v.timeline_view_ ++ [TimelineCall.end_batch b.prev_batch] })
            b.events) bs := rfl
    rw [hstep, replay_events_eq, ih]
    simp [batchCalls, List.foldl_append]

/-- Filling the member list does not touch the timeline. -/
theorem insert_initial_members_timeline (lt : String → String → Bool) (room : Room)
    (v : RoomView) :
    (insert_initial_members lt room v).timeline_view_ = v.timeline_view_ := by
  unfold insert_initial_members
  generalize room.state.members = ms
  induction ms generalizing v with
  | nil => rfl
  | cons m ms ih => rw [List.foldl_cons, ih]

/-- The projection `renders` distributes over concatenation. -/
theorem renders_append (a b : List TimelineCall) :
    renders (a ++ b) = renders a ++ renders b := by
  induction a with
  | nil => rfl
  | cons c a ih => cases c <;> simp [renders, ih]

/-- The projection `callShape` distributes over concatenation. -/
theorem callShape_append (a b : List TimelineCall) :
    callShape (a ++ b) = callShape a ++ callShape b := by
  induction a with
  | nil => rfl
  | cons c a ih => cases c <;> simp [callShape, ih]

/-- The calls for a concatenation of events: the second part is replayed from the state
reached after the first. -/
theorem eventCalls_append (apply : RoomState → proto.Event → RoomState)
    (xs ys : List proto.Event) :
    ∀ s, eventCalls apply s (xs ++ ys) =
      eventCalls apply s xs ++ eventCalls apply (xs.foldl apply s) ys := by
  induction xs with
  | nil => intro s; rfl
  | cons x xs ih => intro s; simp [eventCalls, ih]

/-- The batch boundaries do not affect which state each event is rendered against. -/
theorem renders_batchCalls (apply : RoomState → proto.Event → RoomState)
    (buffer : List Batch) :
    ∀ s, renders (batchCalls apply s buffer) =
      renders (eventCalls apply s (buffer.map Batch.events).flatten) := by
  induction buffer with
  | nil => intro s; rfl
  | cons b bs ih =>
    intro s
    simp [batchCalls, renders, renders_append, ih, eventCalls_append]

/-- Event `k + 1` is rendered against the state as of event `k + 1`. -/
theorem renders_eventCalls (apply : RoomState → proto.Event → RoomState)
    (es : List proto.Event) :
    ∀ s, renders (eventCalls apply s es) =
      List.zip ((List.range es.length).map fun k => stateAsOf apply s es (k + 1)) es := by
  induction es with
  | nil => intro s; rfl
  | cons e es ih =>
    intro s
    simp only [eventCalls, renders, ih, List.length_cons, List.range_succ_eq_map,
      List.map_cons, List.map_map, List.zip_cons_cons]
    simp [stateAsOf, Function.comp_def]

/-- The events of a batch are rendered in order, one call each. -/
theorem callShape_eventCalls (apply : RoomState → proto.Event → RoomState)
    (es : List proto.Event) :
    ∀ s, callShape (eventCalls apply s es) = es.map Sum.inr := by
  induction es with
  | nil => intro s; rfl
  | cons e es ih => intro s; simp [eventCalls, callShape, ih]

/-- Each batch contributes one `end_batch` call with its token, followed by the renderings
of its events. -/
theorem callShape_batchCalls (apply : RoomState → proto.Event → RoomState)
    (buffer : List Batch) :
    ∀ s, callShape (batchCalls apply s buffer) =
      buffer.flatMap fun b => Sum.inl b.prev_batch :: b.events.map Sum.inr := by
  induction buffer with
  | nil => intro s; rfl
  | cons b bs ih =>
    intro s
    simp [batchCalls, callShape, callShape_append, callShape_eventCalls, ih]

/-- C3: the replay done by the constructor starts from `Room::initial_state()`. With
`e_1 .. e_n` the events of all batches in buffer order, the `push_back` calls are, in order,
`e_k` rendered against the state obtained by applying `e_1 .. e_k` to the initial state. The
calls on the timeline are, for each batch in order, one `end_batch` with the token of that
batch followed by the renderings of the events of that batch. The room, and so the live
state returned by `Room::state()`, is the same after the constructor as before. -/
theorem ctor_replay (lt : String → String → Bool)
    (apply : RoomState → proto.Event → RoomState) (room : Room) :
    renders (ctor lt apply room).2.timeline_view_ =
        List.zip
          ((List.range (room.buffer.map Batch.events).flatten.length).map fun k =>
            stateAsOf apply room.initial_state (room.buffer.map Batch.events).flatten (k + 1))
          (room.buffer.map Batch.events).flatten ∧
      callShape (ctor lt apply room).2.timeline_view_ =
        (room.buffer.flatMap fun b => Sum.inl b.prev_batch :: b.events.map Sum.inr) ∧
      (ctor lt apply room).1.state = room.state ∧ (ctor lt apply room).1 = room := by
  have ht : (ctor lt apply room).2.timeline_view_ =
      batchCalls apply room.initial_state room.buffer := by
    simp [ctor, replay_batches_eq, insert_initial_members_timeline]
  rw [ht, renders_batchCalls, renders_eventCalls, callShape_batchCalls]
  exact ⟨rfl, rfl, rfl, rfl⟩

/-! ### Resolved member names -/

/-- For a fixed display name, the form `DisplayName (id)` is different for different
ids. -/
theorem parenFormat_inj (dn x y : String) (h : parenFormat dn x = parenFormat dn y) :
    x = y := by
  have hd := congrArg String.data h
  simp only [parenFormat, String.data_append, List.append_assoc,
    List.append_cancel_left_eq] at hd
  exact String.ext (List.append_cancel_right hd)

/-- The form `DisplayName (id)` is never the bare display name. -/
theorem parenFormat_ne (dn x : String) : parenFormat dn x ≠ dn := by
  intro he
  have hl := congrArg String.length he
  simp only [parenFormat, String.length_append] at hl
  have : " (".length = 2 := rfl
  omega

/-- The form `DisplayName (id)` contains the id. -/
theorem parenFormat_infix (dn x : String) : x.data <:+: (parenFormat dn x).data := by
  refine ⟨(dn ++ " (").data, ")".data, ?_⟩
  simp [parenFormat, String.data_append]

/-- The three cases of the naming rule. -/
theorem member_name_fmt_cases (fmt : String → String → String) (s : RoomState) (m : Member) :
    (m.display_name = "" ∧ s.name_form m = NameForm.byId ∧
        s.member_name_fmt fmt m = m.id) ∨
      (m.display_name ≠ "" ∧ s.name_rivals m = [] ∧ s.name_form m = NameForm.bare ∧
        s.member_name_fmt fmt m = m.display_name) ∨
      (m.display_name ≠ "" ∧ s.name_rivals m ≠ [] ∧ s.name_form m = NameForm.tagged ∧
        s.member_name_fmt fmt m = fmt m.display_name m.id) := by
  unfold RoomState.member_name_fmt RoomState.name_form
  by_cases h1 : m.display_name = ""
  · left; simp [h1]
  · by_cases h2 : s.name_rivals m = []
    · right; left; simp [h1, h2]
    · right; right
      have : (s.name_rivals m).length ≠ 0 := fun h => h2 (List.length_eq_zero.1 h)
      simp [h1, h2, this]

/-- An active member with another id and the same display name is a rival. -/
theorem name_rivals_ne_nil (s : RoomState) (a b : Member) (hb : b ∈ s.members)
    (hid : b.id ≠ a.id) (hba : b.active = true) (hdn : b.display_name = a.display_name) :
    s.name_rivals a ≠ [] := by
  have hmem : b ∈ s.name_rivals a := by
    simp only [RoomState.name_rivals, List.mem_filter, Bool.and_eq_true, decide_eq_true_eq]
    exact ⟨hb, ⟨hid, hba⟩, hdn⟩
  intro h0
  rw [h0] at hmem
  exact List.not_mem_nil _ hmem

/-- C4, counterexample: two distinct joined members can resolve to the same name. In
`clashState` the member `@a` (no display name) and the member `@b` (display name `@a`) both
resolve to `@a`. In `formState` the member `@b` (shared display name `Sam`), the member
whose id is `Sam (@b)` and the member whose display name is `Sam (@b)` all resolve to
`Sam (@b)`. In `crossState` two members with different shared display names both resolve to
`S (q (r)`. In `threeSams`, after `@b` has left, `@a` still shares its display name with
`@c` and does not resolve to `Sam`. -/
theorem member_name_clash :
    (clashA ∈ clashState.members ∧ clashB ∈ clashState.members ∧ clashA ≠ clashB ∧
      clashA.id ≠ clashB.id ∧ clashA.membership = Membership.JOIN ∧
      clashB.membership = Membership.JOIN ∧
      clashState.member_name clashA = "@a" ∧ clashState.member_name clashB = "@a") ∧
      (formState.member_name samB = "Sam (@b)" ∧ formState.member_name idForm = "Sam (@b)" ∧
        formState.member_name dnForm = "Sam (@b)") ∧
      (crossState.member_name crossA = "S (q (r)" ∧
        crossState.member_name crossB = "S (q (r)") ∧
      ((threeSams.with_membership "@b" Membership.LEAVE).member_name samA = "Sam (@a)") := by
  decide

/-- C4, amended: let the disambiguated form be different for different ids of one display
name, never the bare display name, and contain the id. Take two members of a room state
with different ids, both in JOIN or INVITE state. If they have the same display name, they
resolve to different names. In general they resolve to the same name exactly when the two
names are resolved by different cases of the naming rule and happen to be the same text
(the id of a member without display name is the unshared display name or the disambiguated
form of the other, or the unshared display name of one is the disambiguated form of the
other), or when their different shared display names have the same disambiguated form. When
the common display name is not empty, neither resolved name is the bare display name and
each contains the id of its member; and once the second member is in LEAVE state, the first
resolves to exactly the display name, provided no third active member shares it. -/
theorem member_name_distinct (fmt : String → String → String)
    (hinj : ∀ dn x y, fmt dn x = fmt dn y → x = y)
    (hne : ∀ dn x, fmt dn x ≠ dn)
    (hsub : ∀ dn x : String, x.data <:+: (fmt dn x).data)
    (s : RoomState) (a b : Member)
    (ha : a ∈ s.members) (hb : b ∈ s.members) (hid : a.id ≠ b.id)
    (haa : a.active = true) (hba : b.active = true) :
    (a.display_name = b.display_name →
        s.member_name_fmt fmt a ≠ s.member_name_fmt fmt b) ∧
      (s.member_name_fmt fmt a = s.member_name_fmt fmt b ↔
        (s.name_form a = NameForm.byId ∧ s.name_form b = NameForm.bare ∧
            a.id = b.display_name) ∨
          (s.name_form a = NameForm.bare ∧ s.name_form b = NameForm.byId ∧
            a.display_name = b.id) ∨
          (s.name_form a = NameForm.byId ∧ s.name_form b = NameForm.tagged ∧
            a.id = fmt b.display_name b.id) ∨
          (s.name_form a = NameForm.tagged ∧ s.name_form b = NameForm.byId ∧
            fmt a.display_name a.id = b.id) ∨
          (s.name_form a = NameForm.bare ∧ s.name_form b = NameForm.tagged ∧
            a.display_name = fmt b.display_name b.id) ∨
          (s.name_form a = NameForm.tagged ∧ s.name_form b = NameForm.bare ∧
            fmt a.display_name a.id = b.display_name) ∨
          (s.name_form a = NameForm.tagged ∧ s.name_form b = NameForm.tagged ∧
            a.display_name ≠ b.display_name ∧
            fmt a.display_name a.id = fmt b.display_name b.id)) ∧
      (a.display_name = b.display_name → a.display_name ≠ "" →
        s.member_name_fmt fmt a ≠ a.display_name ∧
          s.member_name_fmt fmt b ≠ b.display_name ∧
          a.id.data <:+: (s.member_name_fmt fmt a).data ∧
          b.id.data <:+: (s.member_name_fmt fmt b).data) ∧
      (a.display_name = b.display_name → a.display_name ≠ "" →
        (∀ o ∈ s.members, o.id ≠ a.id → o.id ≠ b.id → o.active = true →
          o.display_name ≠ a.display_name) →
        (s.with_membership b.id Membership.LEAVE).member_name_fmt fmt a =
          a.display_name) := by
  have hshared : a.display_name = b.display_name → a.display_name ≠ "" →
      s.member_name_fmt fmt a = fmt a.display_name a.id ∧
        s.member_name_fmt fmt b = fmt b.display_name b.id := by
    intro hdn hne1
    have hne2 : b.display_name ≠ "" := hdn ▸ hne1
    have hra := name_rivals_ne_nil s a b hb (Ne.symm hid) hba hdn.symm
    have hrb := name_rivals_ne_nil s b a ha hid haa hdn
    rcases member_name_fmt_cases fmt s a with h | h | h
    · exact absurd h.1 hne1
    · exact absurd h.2.1 hra
    · rcases member_name_fmt_cases fmt s b with h' | h' | h'
      · exact absurd h'.1 hne2
      · exact absurd h'.2.1 hrb
      · exact ⟨h.2.2.2, h'.2.2.2⟩
  have hsame : a.display_name = b.display_name →
      s.member_name_fmt fmt a ≠ s.member_name_fmt fmt b := by
    intro hdn
    by_cases hne1 : a.display_name = ""
    · have hne2 : b.display_name = "" := hdn ▸ hne1
      simp [RoomState.member_name_fmt, hne1, hne2, hid]
    · obtain ⟨h1, h2⟩ := hshared hdn hne1
      rw [h1, h2, hdn]
      exact fun h => hid (hinj _ _ _ h)
  refine ⟨hsame, ?_, ?_, ?_⟩
  · rcases member_name_fmt_cases fmt s a with ⟨_, fa, na⟩ | ⟨_, _, fa, na⟩ | ⟨_, _, fa, na⟩ <;>
      rcases member_name_fmt_cases fmt s b with
        ⟨_, fb, nb⟩ | ⟨_, _, fb, nb⟩ | ⟨_, _, fb, nb⟩ <;>
      rw [na, nb, fa, fb]
    · simpa using hid
    · simp
    · simp
    · simp
    · simp only [reduceCtorEq, false_and, and_false, or_self, iff_false]
      intro hdn
      exact hsame hdn (by rw [na, nb]; exact hdn)
    · simp
    · simp
    · simp
    · simp only [reduceCtorEq, false_and, and_false, false_or, true_and]
      constructor
      · intro h
        refine ⟨fun hdn => ?_, h⟩
        exact hsame hdn (by rw [na, nb]; exact h)
      · exact fun h => h.2
  · intro hdn hne1
    obtain ⟨h1, h2⟩ := hshared hdn hne1
    rw [h1, h2]
    exact ⟨hne _ _, hne _ _, hsub _ _, hsub _ _⟩
  · intro _ hne1 hothers
    have hnil : (s.with_membership b.id Membership.LEAVE).name_rivals a = [] := by
      rw [RoomState.name_rivals, List.filter_eq_nil_iff]
      intro o ho
      simp only [RoomState.with_membership, List.mem_map] at ho
      obtain ⟨m, hm, rfl⟩ := ho
      by_cases hmb : m.id = b.id
      · simp [hmb, Member.active, Member.membership]
      · simp only [hmb, if_false]
        by_cases hma : m.id = a.id
        · simp [hma]
        · by_cases hact : m.active = true
          · have := hothers m hm hma hmb hact
            simp [this]
          · simp [hact]
    simp [RoomState.member_name_fmt, hne1, hnil]

/-- Witness for C4 (amended) in the scenario of spec 8.2, with the disambiguated form of
the example of the spec: `@a` and `@b`, both joined, both displayed as `Sam`. -/
theorem member_name_distinct_witness :
    (∀ dn x y, parenFormat dn x = parenFormat dn y → x = y) ∧
      (∀ dn x, parenFormat dn x ≠ dn) ∧
      (∀ dn x : String, x.data <:+: (parenFormat dn x).data) ∧
      samA ∈ samState.members ∧ samB ∈ samState.members ∧ samA.id ≠ samB.id ∧
      samA.active = true ∧ samB.active = true ∧ samA.display_name = samB.display_name ∧
      samState.member_name samA ≠ samState.member_name samB ∧
      samState.member_name samA ≠ "Sam" ∧ samState.member_name samB ≠ "Sam" ∧
      "@a".data <:+: (samState.member_name samA).data ∧
      "@b".data <:+: (samState.member_name samB).data ∧
      (samState.with_membership "@b" Membership.LEAVE).member_name samA = "Sam" :=
  have h := member_name_distinct parenFormat parenFormat_inj parenFormat_ne parenFormat_infix
    samState samA samB (by decide) (by decide) (by decide) (by decide) (by decide)
  have h3 := h.2.2.1 (by decide) (by decide)
  ⟨parenFormat_inj, parenFormat_ne, parenFormat_infix, by decide, by decide, by decide,
    by decide, by decide, by decide, h.1 (by decide), h3.1, h3.2.1, h3.2.2.1, h3.2.2.2,
    h.2.2.2 (by decide) (by decide) (by decide)⟩

/-! ### The member list after construction -/

/-- C10: the claim fails on the constructor. For the room `leftRoom`, whose state holds the
single record of a member in LEAVE state, the member list after construction holds an entry
for that member, whatever the comparator and the event application are; the slot
`membership_changed` called for the same member on that member list removes the entry. -/
theorem ctor_lists_left_member (lt : String → String → Bool)
    (apply : RoomState → proto.Event → RoomState) :
    (RoomView.ctor lt apply leftRoom).2.member_list_ = [("@a", leftMember)] ∧
      leftMember.membership = Membership.LEAVE ∧ leftMember.active = false ∧
      (RoomView.membership_changed sampleLess leftRoom
        { member_list_ := [("@a", leftMember)], timeline_view_ := [] } leftMember
        Membership.JOIN).view.member_list_ = [] :=
  ⟨rfl, rfl, rfl, by decide⟩
